import Mathlib

/-!
Verification of the bfi brainfuck interpreter (`src/main.rs`).

The embedding mirrors the three pipeline stages of the source:
`lexer` (scanner), `parserLoop`/`parser` (structurer) and `run` (executor),
together with the initial machine state built in `main`.

Machine bytes are modelled as `Nat` values kept below 256 by taking the
remainder modulo 256 exactly where the Rust code uses the wrapping `u8`
operations.  Console output is modelled as the list of emitted character
codes, console input as the list of bytes remaining on stdin.  Rust panics
become explicit error values (`ParseError`, `RunError`); loop execution is
driven by a fuel parameter, `Outcome.fuelOut` standing for a run that has
not finished within the given fuel.
-/

namespace Bfi

/-- The eight recognized symbols (Rust `enum Token`). -/
inductive Token where
  | incrementPointer
  | decrementPointer
  | increment
  | decrement
  | output
  | input
  | loopOpen
  | loopClose
deriving DecidableEq, Repr

/-- Character-to-token table, Rust `impl TryFrom<char> for Token`;
every unrecognized character maps to `none` (the `Err(())` case). -/
def tokenOfChar? (c : Char) : Option Token :=
  match c with
  | '>' => some .incrementPointer
  | '<' => some .decrementPointer
  | '+' => some .increment
  | '-' => some .decrement
  | '.' => some .output
  | ',' => some .input
  | '[' => some .loopOpen
  | ']' => some .loopClose
  | _ => none

/-- Rust `fn lexer`: walk the source characters in order, keep the tokens of
recognized characters and drop everything else.  The Rust `String` argument
is modelled as its list of characters. -/
def lexer : List Char → List Token
  | [] => []
  | c :: cs =>
    match tokenOfChar? c with
    | some t => t :: lexer cs
    | none => lexer cs

/-- Rust `enum Instruction`: six atomic actions plus `Loop` owning the list
of its child instructions. -/
inductive Instruction where
  | incrementPointer
  | decrementPointer
  | increment
  | decrement
  | output
  | input
  | loop (body : List Instruction)

/-- Token-to-instruction table, Rust `impl TryFrom<Token> for Instruction`;
the two bracket tokens map to `none` (the `Err(())` case). -/
def instructionOfToken? : Token → Option Instruction
  | .incrementPointer => some .incrementPointer
  | .decrementPointer => some .decrementPointer
  | .increment => some .increment
  | .decrement => some .decrement
  | .output => some .output
  | .input => some .input
  | .loopOpen => none
  | .loopClose => none

/-- The two panic messages of Rust `fn parser`, each carrying the index it
reports: `loop ending at {i} has no beginning` and
`loop that starts at {loop_start} has no ending`. -/
inductive ParseError where
  | unmatchedClose (i : Nat)
  | unmatchedOpen (start : Nat)
deriving DecidableEq, Repr

/-- The `for (i, token) in tokens.iter().enumerate()` loop of Rust
`fn parser`, entered at index `i` with the accumulated `instructions`,
the current `loop_stack` depth and the recorded `loop_start` index.
The source's `token.clone().try_into().unwrap()` for the six non-bracket
tokens at depth zero is inlined as one match arm per token.  After the scan
the source's trailing `loop_stack != 0` check reports the unmatched open. -/
def parserLoop (tokens : List Token) (i : Nat) (instructions : List Instruction)
    (loopStack loopStart : Nat) : Except ParseError (List Instruction) :=
  if h : i < tokens.length then
    if loopStack = 0 then
      match tokens.get ⟨i, h⟩ with
      | .loopOpen => parserLoop tokens (i + 1) instructions 1 i
      | .loopClose => .error (.unmatchedClose i)
      | .incrementPointer =>
          parserLoop tokens (i + 1) (instructions ++ [.incrementPointer]) 0 loopStart
      | .decrementPointer =>
          parserLoop tokens (i + 1) (instructions ++ [.decrementPointer]) 0 loopStart
      | .increment => parserLoop tokens (i + 1) (instructions ++ [.increment]) 0 loopStart
      | .decrement => parserLoop tokens (i + 1) (instructions ++ [.decrement]) 0 loopStart
      | .output => parserLoop tokens (i + 1) (instructions ++ [.output]) 0 loopStart
      | .input => parserLoop tokens (i + 1) (instructions ++ [.input]) 0 loopStart
    else
      match tokens.get ⟨i, h⟩ with
      | .loopOpen => parserLoop tokens (i + 1) instructions (loopStack + 1) loopStart
      | .loopClose =>
        if loopStack - 1 = 0 then
          match parserLoop ((tokens.drop (loopStart + 1)).take (i - (loopStart + 1))) 0 [] 0 0 with
          | .error e => .error e
          | .ok body => parserLoop tokens (i + 1) (instructions ++ [.loop body]) 0 loopStart
        else parserLoop tokens (i + 1) instructions (loopStack - 1) loopStart
      | _ => parserLoop tokens (i + 1) instructions loopStack loopStart
  else if loopStack ≠ 0 then .error (.unmatchedOpen loopStart)
  else .ok instructions
termination_by (tokens.length, tokens.length - i)
decreasing_by
  all_goals first
    | exact Prod.Lex.right tokens.length (by omega)
    | · apply Prod.Lex.left
        have hlen : ((tokens.drop (loopStart + 1)).take (i - (loopStart + 1))).length
            ≤ i - (loopStart + 1) := by
          simp [List.length_take]
        omega

/-- Rust `fn parser`: run the scan from index 0 with empty accumulator,
`loop_stack = 0` and `loop_start = 0`. -/
def parser (tokens : List Token) : Except ParseError (List Instruction) :=
  parserLoop tokens 0 [] 0 0

/-- The runtime panics of Rust `fn run`: the debug-profile overflow panic of
`*data_pointer -= 1` at pointer 0, the index panic of `tape[*data_pointer]`
when the pointer is outside the tape, and the `expect` panic when stdin has
no byte left. -/
inductive RunError where
  | pointerUnderflow
  | outOfBounds
  | inputExhausted
deriving DecidableEq, Repr

/-- The mutable state of Rust `fn run` (`tape` and `data_pointer`) together
with the console streams it touches: `output` is the list of character codes
printed so far, `input` the list of bytes remaining on stdin. -/
structure MachineState where
  tape : List Nat
  pointer : Nat
  output : List Nat
  input : List Nat
deriving DecidableEq, Repr

/-- Result of executing instructions: normal completion, a runtime panic
(keeping the state — in particular the output already emitted — at the
moment of the fault), or fuel exhaustion. -/
inductive Outcome where
  | ok (s : MachineState)
  | fault (e : RunError) (s : MachineState)
  | fuelOut
deriving DecidableEq, Repr

/-- Rust `fn run`: execute the instruction list in order against the state.
Cell updates take the remainder modulo 256 where the source uses
`wrapping_add(1)` and `wrapping_sub(1)` on `u8` (for a cell value `v < 256`,
`(v + 255) % 256` is exactly the wrapping decrement).  The source's
`while tape[*data_pointer] != 0 { run(body) }` is unfolded one iteration at
a time by re-queueing the loop instruction; each executed instruction
consumes one unit of fuel. -/
def run : Nat → List Instruction → MachineState → Outcome
  | 0, _, _ => .fuelOut
  | _ + 1, [], s => .ok s
  | fuel + 1, ins :: rest, s =>
    match ins with
    | .incrementPointer => run fuel rest { s with pointer := s.pointer + 1 }
    | .decrementPointer =>
      if s.pointer = 0 then .fault .pointerUnderflow s
      else run fuel rest { s with pointer := s.pointer - 1 }
    | .increment =>
      if h : s.pointer < s.tape.length then
        run fuel rest
          { s with tape := s.tape.set s.pointer ((s.tape.get ⟨s.pointer, h⟩ + 1) % 256) }
      else .fault .outOfBounds s
    | .decrement =>
      if h : s.pointer < s.tape.length then
        run fuel rest
          { s with tape := s.tape.set s.pointer ((s.tape.get ⟨s.pointer, h⟩ + 255) % 256) }
      else .fault .outOfBounds s
    | .output =>
      if h : s.pointer < s.tape.length then
        run fuel rest { s with output := s.output ++ [s.tape.get ⟨s.pointer, h⟩] }
      else .fault .outOfBounds s
    | .input =>
      match s.input with
      | [] => .fault .inputExhausted s
      | b :: bs =>
        if s.pointer < s.tape.length then
          run fuel rest { s with tape := s.tape.set s.pointer b, input := bs }
        else .fault .outOfBounds { s with input := bs }
    | .loop body =>
      if h : s.pointer < s.tape.length then
        if s.tape.get ⟨s.pointer, h⟩ = 0 then run fuel rest s
        else
          match run fuel body s with
          | .ok s' => run fuel (Instruction.loop body :: rest) s'
          | out => out
      else .fault .outOfBounds s

/-- The tape allocated by Rust `fn main`: `vec![0; 24576]`. -/
def initTape : List Nat := List.replicate 24576 0

/-- The initial data pointer of Rust `fn main`: `12288`. -/
def initPointer : Nat := 12288

/-- The machine state just before `run` is first entered in `fn main`,
for a given stdin content. -/
def initState (input : List Nat) : MachineState :=
  { tape := initTape, pointer := initPointer, output := [], input := input }

/-- The pipeline of Rust `fn main` after the file has been read: lex, parse,
and only if parsing succeeded execute against the fresh state.  A parse
error aborts before `run` is entered, so no `Outcome` (and no output)
exists in that case. -/
def runProgram (fuel : Nat) (src : List Char) (input : List Nat) :
    Except ParseError Outcome :=
  match parser (lexer src) with
  | .error e => .error e
  | .ok instructions => .ok (run fuel instructions (initState input))

/-! ### Specification-side vocabulary

The definitions below are not translated from the source; they formalize the
notions the specification's claims are phrased in (balanced bracket
sequences, the position of an unmatched bracket, the recursive structural
correspondence) so that the behaviour of `parser` can be stated and
compared against them. -/

/-- A token is one of the two bracket symbols. -/
def isBracket : Token → Bool
  | .loopOpen => true
  | .loopClose => true
  | _ => false

/-- Scan the tokens keeping a bracket depth that starts at `d`; `true` iff
the depth never drops below zero and ends at zero.  `balancedFrom 0 ts`
says every loop-open of `ts` has a matching loop-close and vice versa. -/
def balancedFrom : Nat → List Token → Bool
  | d, [] => d == 0
  | d, .loopOpen :: ts => balancedFrom (d + 1) ts
  | 0, .loopClose :: _ => false
  | d + 1, .loopClose :: ts => balancedFrom d ts
  | d, _ :: ts => balancedFrom d ts

/-- A bracket-balanced token sequence. -/
def Balanced (ts : List Token) : Prop := balancedFrom 0 ts = true

/-- Scanning with current bracket depth `d ≥ 1`, split the sequence at the
loop-close that returns the depth to zero: `some (b, r)` means the sequence
is `b ++ loopClose :: r` with that close as the matching one; `none` means
the depth never returns to zero. -/
def splitAtClose : List Token → Nat → Option (List Token × List Token)
  | [], _ => none
  | .loopOpen :: ts, d =>
    match splitAtClose ts (d + 1) with
    | some (b, r) => some (.loopOpen :: b, r)
    | none => none
  | .loopClose :: ts, d =>
    if d = 1 then some ([], ts)
    else
      match splitAtClose ts (d - 1) with
      | some (b, r) => some (.loopClose :: b, r)
      | none => none
  | t :: ts, d =>
    match splitAtClose ts d with
    | some (b, r) => some (t :: b, r)
    | none => none

/-- Position of the first loop-close that has no earlier matching loop-open
(the close met at depth zero), scanning with starting depth `d`. -/
def firstBadClose : List Token → Nat → Option Nat
  | [], _ => none
  | .loopOpen :: ts, d => (firstBadClose ts (d + 1)).map (· + 1)
  | .loopClose :: _, 0 => some 0
  | .loopClose :: ts, d + 1 => (firstBadClose ts d).map (· + 1)
  | _ :: ts, d => (firstBadClose ts d).map (· + 1)

/-- Unfolding `splitAtClose` past a non-bracket token. -/
theorem splitAtClose_cons_other {t : Token} (hb : isBracket t = false)
    (ts : List Token) (d : Nat) :
    splitAtClose (t :: ts) d = (splitAtClose ts d).map (fun p => (t :: p.1, p.2)) := by
  cases t
  case loopOpen => simp [isBracket] at hb
  case loopClose => simp [isBracket] at hb
  all_goals simp only [splitAtClose]
  all_goals cases splitAtClose ts d <;> simp

/-- Unfolding `splitAtClose` past a loop-open token. -/
theorem splitAtClose_cons_open (ts : List Token) (d : Nat) :
    splitAtClose (.loopOpen :: ts) d
      = (splitAtClose ts (d + 1)).map (fun p => (.loopOpen :: p.1, p.2)) := by
  simp only [splitAtClose]; cases splitAtClose ts (d + 1) <;> simp

/-- Unfolding `splitAtClose` past a loop-close token. -/
theorem splitAtClose_cons_close (ts : List Token) (d : Nat) :
    splitAtClose (.loopClose :: ts) d
      = if d = 1 then some ([], ts)
        else (splitAtClose ts (d - 1)).map (fun p => (.loopClose :: p.1, p.2)) := by
  simp only [splitAtClose]
  by_cases h1 : d = 1
  · simp [h1]
  · simp only [if_neg h1]; cases splitAtClose ts (d - 1) <;> simp

/-- Unfolding `balancedFrom` past a non-bracket token. -/
theorem balancedFrom_cons_other {t : Token} (hb : isBracket t = false)
    (d : Nat) (ts : List Token) : balancedFrom d (t :: ts) = balancedFrom d ts := by
  cases t
  case loopOpen => simp [isBracket] at hb
  case loopClose => simp [isBracket] at hb
  all_goals cases d <;> simp only [balancedFrom]

/-- Unfolding `balancedFrom` past a loop-close token at positive depth. -/
theorem balancedFrom_cons_close {d : Nat} (hd : 0 < d) (ts : List Token) :
    balancedFrom d (.loopClose :: ts) = balancedFrom (d - 1) ts := by
  cases d with
  | zero => omega
  | succ e => simp [balancedFrom]

/-- Unfolding `firstBadClose` past a non-bracket token. -/
theorem firstBadClose_cons_other {t : Token} (hb : isBracket t = false)
    (ts : List Token) (d : Nat) :
    firstBadClose (t :: ts) d = (firstBadClose ts d).map (· + 1) := by
  cases t
  case loopOpen => simp [isBracket] at hb
  case loopClose => simp [isBracket] at hb
  all_goals simp only [firstBadClose]

/-- Unfolding `firstBadClose` past a loop-close token at positive depth. -/
theorem firstBadClose_cons_close {d : Nat} (hd : 0 < d) (ts : List Token) :
    firstBadClose (.loopClose :: ts) d = (firstBadClose ts (d - 1)).map (· + 1) := by
  cases d with
  | zero => omega
  | succ e => simp [firstBadClose]

/-- Splitting at the matching close decomposes the sequence. -/
theorem splitAtClose_eq_append :
    ∀ (ts : List Token) (d : Nat) (b r : List Token), 0 < d →
      splitAtClose ts d = some (b, r) → ts = b ++ .loopClose :: r := by
  intro ts
  induction ts with
  | nil => intro d b r _ h; simp [splitAtClose] at h
  | cons t ts ih =>
    intro d b r hd h
    cases htb : isBracket t
    · rw [splitAtClose_cons_other htb] at h
      cases hs : splitAtClose ts d with
      | none => rw [hs] at h; simp at h
      | some p =>
        obtain ⟨p1, p2⟩ := p
        rw [hs] at h
        simp only [Option.map_some', Option.some.injEq, Prod.mk.injEq] at h
        obtain ⟨hb2, hr2⟩ := h
        subst hb2; subst hr2
        simpa using ih d p1 p2 hd hs
    · cases t <;> simp [isBracket] at htb
      case loopOpen =>
        rw [splitAtClose_cons_open] at h
        cases hs : splitAtClose ts (d + 1) with
        | none => rw [hs] at h; simp at h
        | some p =>
          obtain ⟨p1, p2⟩ := p
          rw [hs] at h
          simp only [Option.map_some', Option.some.injEq, Prod.mk.injEq] at h
          obtain ⟨hb2, hr2⟩ := h
          subst hb2; subst hr2
          simpa using ih (d + 1) p1 p2 (by omega) hs
      case loopClose =>
        rw [splitAtClose_cons_close] at h
        by_cases h1 : d = 1
        · rw [if_pos h1] at h
          simp only [Option.some.injEq, Prod.mk.injEq] at h
          obtain ⟨hb2, hr2⟩ := h
          subst hb2; subst hr2
          simp
        · rw [if_neg h1] at h
          cases hs : splitAtClose ts (d - 1) with
          | none => rw [hs] at h; simp at h
          | some p =>
            obtain ⟨p1, p2⟩ := p
            rw [hs] at h
            simp only [Option.map_some', Option.some.injEq, Prod.mk.injEq] at h
            obtain ⟨hb2, hr2⟩ := h
            subst hb2; subst hr2
            simpa using ih (d - 1) p1 p2 (by omega) hs

/-- Unfolding `balancedFrom` past a loop-open token. -/
theorem balancedFrom_cons_open (d : Nat) (ts : List Token) :
    balancedFrom d (.loopOpen :: ts) = balancedFrom (d + 1) ts := by
  simp only [balancedFrom]

/-- Unfolding `firstBadClose` past a loop-open token. -/
theorem firstBadClose_cons_open (ts : List Token) (d : Nat) :
    firstBadClose (.loopOpen :: ts) d = (firstBadClose ts (d + 1)).map (· + 1) := by
  simp only [firstBadClose]

/-- If the depth never returns to zero the sequence is unbalanced. -/
theorem splitAtClose_none_balancedFrom :
    ∀ (ts : List Token) (d : Nat), 0 < d → splitAtClose ts d = none →
      balancedFrom d ts = false := by
  intro ts
  induction ts with
  | nil =>
    intro d hd _
    cases d with
    | zero => omega
    | succ e => simp [balancedFrom]
  | cons t ts ih =>
    intro d hd h
    cases htb : isBracket t
    · rw [splitAtClose_cons_other htb] at h
      rw [balancedFrom_cons_other htb]
      cases hs : splitAtClose ts d with
      | none => exact ih d hd hs
      | some p => rw [hs] at h; simp at h
    · cases t <;> simp [isBracket] at htb
      case loopOpen =>
        rw [splitAtClose_cons_open] at h
        rw [balancedFrom_cons_open]
        cases hs : splitAtClose ts (d + 1) with
        | none => exact ih (d + 1) (by omega) hs
        | some p => rw [hs] at h; simp at h
      case loopClose =>
        rw [splitAtClose_cons_close] at h
        by_cases h1 : d = 1
        · rw [if_pos h1] at h; simp at h
        · rw [if_neg h1] at h
          rw [balancedFrom_cons_close hd]
          cases hs : splitAtClose ts (d - 1) with
          | none => exact ih (d - 1) (by omega) hs
          | some p => rw [hs] at h; simp at h

/-- If the depth never returns to zero there is no close at depth zero. -/
theorem splitAtClose_none_firstBadClose :
    ∀ (ts : List Token) (d : Nat), 0 < d → splitAtClose ts d = none →
      firstBadClose ts d = none := by
  intro ts
  induction ts with
  | nil => intro d _ _; simp [firstBadClose]
  | cons t ts ih =>
    intro d hd h
    cases htb : isBracket t
    · rw [splitAtClose_cons_other htb] at h
      rw [firstBadClose_cons_other htb]
      cases hs : splitAtClose ts d with
      | none => rw [ih d hd hs]; rfl
      | some p => rw [hs] at h; simp at h
    · cases t <;> simp [isBracket] at htb
      case loopOpen =>
        rw [splitAtClose_cons_open] at h
        rw [firstBadClose_cons_open]
        cases hs : splitAtClose ts (d + 1) with
        | none => rw [ih (d + 1) (by omega) hs]; rfl
        | some p => rw [hs] at h; simp at h
      case loopClose =>
        rw [splitAtClose_cons_close] at h
        by_cases h1 : d = 1
        · rw [if_pos h1] at h; simp at h
        · rw [if_neg h1] at h
          rw [firstBadClose_cons_close hd]
          cases hs : splitAtClose ts (d - 1) with
          | none => rw [ih (d - 1) (by omega) hs]; rfl
          | some p => rw [hs] at h; simp at h

/-- Balance after the matching close: the scan continues at depth zero. -/
theorem splitAtClose_balancedFrom :
    ∀ (ts : List Token) (d : Nat) (b r : List Token), 0 < d →
      splitAtClose ts d = some (b, r) →
      balancedFrom d ts = balancedFrom 0 r := by
  intro ts
  induction ts with
  | nil => intro d b r _ h; simp [splitAtClose] at h
  | cons t ts ih =>
    intro d b r hd h
    cases htb : isBracket t
    · rw [splitAtClose_cons_other htb] at h
      rw [balancedFrom_cons_other htb]
      cases hs : splitAtClose ts d with
      | none => rw [hs] at h; simp at h
      | some p =>
        obtain ⟨p1, p2⟩ := p
        rw [hs] at h
        simp only [Option.map_some', Option.some.injEq, Prod.mk.injEq] at h
        obtain ⟨hb2, hr2⟩ := h
        subst hb2; subst hr2
        exact ih d p1 p2 hd hs
    · cases t <;> simp [isBracket] at htb
      case loopOpen =>
        rw [splitAtClose_cons_open] at h
        rw [balancedFrom_cons_open]
        cases hs : splitAtClose ts (d + 1) with
        | none => rw [hs] at h; simp at h
        | some p =>
          obtain ⟨p1, p2⟩ := p
          rw [hs] at h
          simp only [Option.map_some', Option.some.injEq, Prod.mk.injEq] at h
          obtain ⟨hb2, hr2⟩ := h
          subst hb2; subst hr2
          exact ih (d + 1) p1 p2 (by omega) hs
      case loopClose =>
        rw [splitAtClose_cons_close] at h
        rw [balancedFrom_cons_close hd]
        by_cases h1 : d = 1
        · rw [if_pos h1] at h
          simp only [Option.some.injEq, Prod.mk.injEq] at h
          obtain ⟨hb2, hr2⟩ := h
          subst hb2; subst hr2
          rw [h1]
        · rw [if_neg h1] at h
          cases hs : splitAtClose ts (d - 1) with
          | none => rw [hs] at h; simp at h
          | some p =>
            obtain ⟨p1, p2⟩ := p
            rw [hs] at h
            simp only [Option.map_some', Option.some.injEq, Prod.mk.injEq] at h
            obtain ⟨hb2, hr2⟩ := h
            subst hb2; subst hr2
            exact ih (d - 1) p1 p2 (by omega) hs

/-- The first close at depth zero lies strictly beyond the matching close. -/
theorem splitAtClose_firstBadClose :
    ∀ (ts : List Token) (d : Nat) (b r : List Token), 0 < d →
      splitAtClose ts d = some (b, r) →
      firstBadClose ts d = (firstBadClose r 0).map (fun j => b.length + 1 + j) := by
  intro ts
  induction ts with
  | nil => intro d b r _ h; simp [splitAtClose] at h
  | cons t ts ih =>
    intro d b r hd h
    cases htb : isBracket t
    · rw [splitAtClose_cons_other htb] at h
      rw [firstBadClose_cons_other htb]
      cases hs : splitAtClose ts d with
      | none => rw [hs] at h; simp at h
      | some p =>
        obtain ⟨p1, p2⟩ := p
        rw [hs] at h
        simp only [Option.map_some', Option.some.injEq, Prod.mk.injEq] at h
        obtain ⟨hb2, hr2⟩ := h
        subst hb2; subst hr2
        rw [ih d p1 p2 hd hs]
        cases firstBadClose p2 0 with
        | none => rfl
        | some j => simp; omega
    · cases t <;> simp [isBracket] at htb
      case loopOpen =>
        rw [splitAtClose_cons_open] at h
        rw [firstBadClose_cons_open]
        cases hs : splitAtClose ts (d + 1) with
        | none => rw [hs] at h; simp at h
        | some p =>
          obtain ⟨p1, p2⟩ := p
          rw [hs] at h
          simp only [Option.map_some', Option.some.injEq, Prod.mk.injEq] at h
          obtain ⟨hb2, hr2⟩ := h
          subst hb2; subst hr2
          rw [ih (d + 1) p1 p2 (by omega) hs]
          cases firstBadClose p2 0 with
          | none => rfl
          | some j => simp; omega
      case loopClose =>
        rw [splitAtClose_cons_close] at h
        rw [firstBadClose_cons_close hd]
        by_cases h1 : d = 1
        · rw [if_pos h1] at h
          simp only [Option.some.injEq, Prod.mk.injEq] at h
          obtain ⟨hb2, hr2⟩ := h
          subst hb2; subst hr2
          rw [h1]
          simp only [Nat.sub_self]
          cases firstBadClose ts 0 with
          | none => rfl
          | some j =>
            simp only [Option.map_some', List.length_nil, Option.some.injEq]
            omega
        · rw [if_neg h1] at h
          cases hs : splitAtClose ts (d - 1) with
          | none => rw [hs] at h; simp at h
          | some p =>
            obtain ⟨p1, p2⟩ := p
            rw [hs] at h
            simp only [Option.map_some', Option.some.injEq, Prod.mk.injEq] at h
            obtain ⟨hb2, hr2⟩ := h
            subst hb2; subst hr2
            rw [ih (d - 1) p1 p2 (by omega) hs]
            cases firstBadClose p2 0 with
            | none => rfl
            | some j => simp; omega

/-- The segment before the matching close is balanced one level down. -/
theorem splitAtClose_body_balanced :
    ∀ (ts : List Token) (d : Nat) (b r : List Token), 0 < d →
      splitAtClose ts d = some (b, r) →
      balancedFrom (d - 1) b = true := by
  intro ts
  induction ts with
  | nil => intro d b r _ h; simp [splitAtClose] at h
  | cons t ts ih =>
    intro d b r hd h
    cases htb : isBracket t
    · rw [splitAtClose_cons_other htb] at h
      cases hs : splitAtClose ts d with
      | none => rw [hs] at h; simp at h
      | some p =>
        obtain ⟨p1, p2⟩ := p
        rw [hs] at h
        simp only [Option.map_some', Option.some.injEq, Prod.mk.injEq] at h
        obtain ⟨hb2, hr2⟩ := h
        subst hb2; subst hr2
        rw [balancedFrom_cons_other htb]
        exact ih d p1 p2 hd hs
    · cases t <;> simp [isBracket] at htb
      case loopOpen =>
        rw [splitAtClose_cons_open] at h
        cases hs : splitAtClose ts (d + 1) with
        | none => rw [hs] at h; simp at h
        | some p =>
          obtain ⟨p1, p2⟩ := p
          rw [hs] at h
          simp only [Option.map_some', Option.some.injEq, Prod.mk.injEq] at h
          obtain ⟨hb2, hr2⟩ := h
          subst hb2; subst hr2
          rw [balancedFrom_cons_open]
          have hde : d - 1 + 1 = d := by omega
          rw [hde]
          simpa using ih (d + 1) p1 p2 (by omega) hs
      case loopClose =>
        rw [splitAtClose_cons_close] at h
        by_cases h1 : d = 1
        · rw [if_pos h1] at h
          simp only [Option.some.injEq, Prod.mk.injEq] at h
          obtain ⟨hb2, hr2⟩ := h
          subst hb2; subst hr2
          simp only [balancedFrom]
          simp only [Nat.beq_eq_true_eq]
          omega
        · rw [if_neg h1] at h
          cases hs : splitAtClose ts (d - 1) with
          | none => rw [hs] at h; simp at h
          | some p =>
            obtain ⟨p1, p2⟩ := p
            rw [hs] at h
            simp only [Option.map_some', Option.some.injEq, Prod.mk.injEq] at h
            obtain ⟨hb2, hr2⟩ := h
            subst hb2; subst hr2
            rw [balancedFrom_cons_close (by omega)]
            have := ih (d - 1) p1 p2 (by omega) hs
            simpa using this

set_option linter.unusedVariables false in
/-- Reference structurer, following the specification text of section 4.2:
a non-bracket symbol becomes its instruction; a loop-open takes the span of
symbols strictly before its matching close, structures that span
recursively into the body of exactly one Loop instruction, and continues
after the close; a loop-close met at depth zero and a loop-open without a
matching close are the two structural errors.  `off` is the absolute
position of the first token, so reported positions agree with the
implementation; the recursive body call restarts at position zero exactly
as the source's recursive call does. -/
def refParse (ts : List Token) (off : Nat) : Except ParseError (List Instruction) :=
  match ts with
  | [] => .ok []
  | .loopOpen :: ts' =>
    match hs : splitAtClose ts' 1 with
    | none => .error (.unmatchedOpen off)
    | some (b, r) =>
      match refParse b 0 with
      | .error e => .error e
      | .ok body =>
        match refParse r (off + b.length + 2) with
        | .error e => .error e
        | .ok rest => .ok (.loop body :: rest)
  | .loopClose :: _ => .error (.unmatchedClose off)
  | .incrementPointer :: ts' =>
    match refParse ts' (off + 1) with
    | .error e => .error e
    | .ok rest => .ok (.incrementPointer :: rest)
  | .decrementPointer :: ts' =>
    match refParse ts' (off + 1) with
    | .error e => .error e
    | .ok rest => .ok (.decrementPointer :: rest)
  | .increment :: ts' =>
    match refParse ts' (off + 1) with
    | .error e => .error e
    | .ok rest => .ok (.increment :: rest)
  | .decrement :: ts' =>
    match refParse ts' (off + 1) with
    | .error e => .error e
    | .ok rest => .ok (.decrement :: rest)
  | .output :: ts' =>
    match refParse ts' (off + 1) with
    | .error e => .error e
    | .ok rest => .ok (.output :: rest)
  | .input :: ts' =>
    match refParse ts' (off + 1) with
    | .error e => .error e
    | .ok rest => .ok (.input :: rest)
termination_by ts.length
decreasing_by
  all_goals simp only [List.length_cons]
  all_goals try omega
  all_goals
    have hlen := congrArg List.length (splitAtClose_eq_append _ _ _ _ (by omega) hs)
    simp only [List.length_append, List.length_cons] at hlen
    omega

/-- Unfolding `refParse` on the empty sequence. -/
theorem refParse_nil (off : Nat) : refParse [] off = .ok [] := by
  simp [refParse]

/-- Unfolding `refParse` past a loop-close token. -/
theorem refParse_cons_close (ts : List Token) (off : Nat) :
    refParse (.loopClose :: ts) off = .error (.unmatchedClose off) := by
  simp [refParse]

/-- Unfolding `refParse` past a non-bracket token. -/
theorem refParse_cons_other {t : Token} {ins : Instruction}
    (ht : instructionOfToken? t = some ins) (ts : List Token) (off : Nat) :
    refParse (t :: ts) off =
      match refParse ts (off + 1) with
      | .error e => .error e
      | .ok rest => .ok (ins :: rest) := by
  cases t <;> simp only [instructionOfToken?, Option.some.injEq] at ht <;> try cases ht
  all_goals rw [refParse]

/-- Unfolding `refParse` past a loop-open token. -/
theorem refParse_cons_open (ts : List Token) (off : Nat) :
    refParse (.loopOpen :: ts) off =
      match splitAtClose ts 1 with
      | none => .error (.unmatchedOpen off)
      | some (b, r) =>
        match refParse b 0 with
        | .error e => .error e
        | .ok body =>
          match refParse r (off + b.length + 2) with
          | .error e => .error e
          | .ok rest => .ok (.loop body :: rest) := by
  rw [refParse]
  cases hsp : splitAtClose ts 1 with
  | none => rfl
  | some p => obtain ⟨b, r⟩ := p; rfl

/-- Terminal behaviour of the scan: past the end of the tokens, a nonzero
depth reports the recorded loop start, otherwise the accumulator is
returned. -/
theorem parserLoop_terminal {tokens : List Token} {i : Nat}
    (h : ¬ i < tokens.length) (acc : List Instruction) (d ls : Nat) :
    parserLoop tokens i acc d ls =
      if d ≠ 0 then .error (.unmatchedOpen ls) else .ok acc := by
  rw [parserLoop, dif_neg h]

set_option linter.unusedVariables false in
/-- While the depth is positive, `parserLoop` only scans for the matching
close: if the depth never returns to zero it fails with the recorded loop
start; otherwise it recursively structures the recorded span and goes on
after the close with one more Loop instruction accumulated. -/
theorem parserLoop_scan (tokens : List Token) :
    ∀ (k i d ls : Nat) (acc : List Instruction), tokens.length - i ≤ k → 0 < d →
      parserLoop tokens i acc d ls =
        match splitAtClose (tokens.drop i) d with
        | none => .error (.unmatchedOpen ls)
        | some (b, r) =>
          match parserLoop ((tokens.drop (ls + 1)).take (i + b.length - (ls + 1))) 0 [] 0 0 with
          | .error e => .error e
          | .ok body => parserLoop tokens (i + b.length + 1) (acc ++ [.loop body]) 0 ls := by
  intro k
  induction k with
  | zero =>
    intro i d ls acc hk hd
    have hi : ¬ i < tokens.length := by omega
    rw [List.drop_eq_nil_of_le (by omega), parserLoop_terminal hi]
    simp only [splitAtClose]
    rw [if_pos (by omega)]
  | succ k ih =>
    intro i d ls acc hk hd
    by_cases hi : i < tokens.length
    · have hdrop : tokens.drop i = tokens.get ⟨i, hi⟩ :: tokens.drop (i + 1) := by
        rw [List.drop_eq_getElem_cons hi]
        rfl
      rw [parserLoop, dif_pos hi, if_neg (by omega : ¬ d = 0), hdrop]
      cases htok : tokens.get ⟨i, hi⟩ with
      | loopOpen =>
        simp only
        rw [ih (i + 1) (d + 1) ls acc (by omega) (by omega)]
        rw [splitAtClose_cons_open]
        cases hs : splitAtClose (tokens.drop (i + 1)) (d + 1) with
        | none => rfl
        | some p =>
          obtain ⟨b2, r2⟩ := p
          simp only [Option.map_some', List.length_cons]
          have h1 : i + 1 + b2.length = i + (b2.length + 1) := by omega
          rw [h1]
      | loopClose =>
        simp only
        rw [splitAtClose_cons_close]
        by_cases h1 : d = 1
        · rw [if_pos (by omega : d - 1 = 0), if_pos h1]
          simp only [List.length_nil]
          have h2 : i + 0 = i := by omega
          rw [h2]
        · rw [if_neg (by omega : ¬ d - 1 = 0), if_neg h1]
          rw [ih (i + 1) (d - 1) ls acc (by omega) (by omega)]
          cases hs : splitAtClose (tokens.drop (i + 1)) (d - 1) with
          | none => rfl
          | some p =>
            obtain ⟨b2, r2⟩ := p
            simp only [Option.map_some', List.length_cons]
            have h2 : i + 1 + b2.length = i + (b2.length + 1) := by omega
            rw [h2]
      | incrementPointer =>
        simp only
        rw [ih (i + 1) d ls acc (by omega) hd]
        rw [splitAtClose_cons_other (t := .incrementPointer) (by simp [isBracket])]
        cases hs : splitAtClose (tokens.drop (i + 1)) d with
        | none => rfl
        | some p =>
          obtain ⟨b2, r2⟩ := p
          simp only [Option.map_some', List.length_cons]
          have h1 : i + 1 + b2.length = i + (b2.length + 1) := by omega
          rw [h1]
      | decrementPointer =>
        simp only
        rw [ih (i + 1) d ls acc (by omega) hd]
        rw [splitAtClose_cons_other (t := .decrementPointer) (by simp [isBracket])]
        cases hs : splitAtClose (tokens.drop (i + 1)) d with
        | none => rfl
        | some p =>
          obtain ⟨b2, r2⟩ := p
          simp only [Option.map_some', List.length_cons]
          have h1 : i + 1 + b2.length = i + (b2.length + 1) := by omega
          rw [h1]
      | increment =>
        simp only
        rw [ih (i + 1) d ls acc (by omega) hd]
        rw [splitAtClose_cons_other (t := .increment) (by simp [isBracket])]
        cases hs : splitAtClose (tokens.drop (i + 1)) d with
        | none => rfl
        | some p =>
          obtain ⟨b2, r2⟩ := p
          simp only [Option.map_some', List.length_cons]
          have h1 : i + 1 + b2.length = i + (b2.length + 1) := by omega
          rw [h1]
      | decrement =>
        simp only
        rw [ih (i + 1) d ls acc (by omega) hd]
        rw [splitAtClose_cons_other (t := .decrement) (by simp [isBracket])]
        cases hs : splitAtClose (tokens.drop (i + 1)) d with
        | none => rfl
        | some p =>
          obtain ⟨b2, r2⟩ := p
          simp only [Option.map_some', List.length_cons]
          have h1 : i + 1 + b2.length = i + (b2.length + 1) := by omega
          rw [h1]
      | output =>
        simp only
        rw [ih (i + 1) d ls acc (by omega) hd]
        rw [splitAtClose_cons_other (t := .output) (by simp [isBracket])]
        cases hs : splitAtClose (tokens.drop (i + 1)) d with
        | none => rfl
        | some p =>
          obtain ⟨b2, r2⟩ := p
          simp only [Option.map_some', List.length_cons]
          have h1 : i + 1 + b2.length = i + (b2.length + 1) := by omega
          rw [h1]
      | input =>
        simp only
        rw [ih (i + 1) d ls acc (by omega) hd]
        rw [splitAtClose_cons_other (t := .input) (by simp [isBracket])]
        cases hs : splitAtClose (tokens.drop (i + 1)) d with
        | none => rfl
        | some p =>
          obtain ⟨b2, r2⟩ := p
          simp only [Option.map_some', List.length_cons]
          have h1 : i + 1 + b2.length = i + (b2.length + 1) := by omega
          rw [h1]
    · rw [List.drop_eq_nil_of_le (by omega), parserLoop_terminal hi]
      simp only [splitAtClose]
      rw [if_pos (by omega)]

/-- At depth zero `parserLoop` computes exactly the reference structurer on
the remaining suffix, appended to the accumulator; errors pass through
unchanged.  The recorded `ls` is dead at depth zero, so the equation holds
for every value of it. -/
theorem parserLoop_eq_refParse :
    ∀ (n : Nat) (tokens : List Token), tokens.length ≤ n →
      ∀ (k i ls : Nat) (acc : List Instruction), tokens.length - i ≤ k →
        parserLoop tokens i acc 0 ls =
          match refParse (tokens.drop i) i with
          | .error e => .error e
          | .ok ins => .ok (acc ++ ins) := by
  intro n
  induction n with
  | zero =>
    intro tokens hn k i ls acc hk
    have hi : ¬ i < tokens.length := by omega
    rw [List.drop_eq_nil_of_le (by omega), parserLoop_terminal hi, refParse_nil]
    simp
  | succ n ihn =>
    intro tokens hn k
    induction k with
    | zero =>
      intro i ls acc hk
      have hi : ¬ i < tokens.length := by omega
      rw [List.drop_eq_nil_of_le (by omega), parserLoop_terminal hi, refParse_nil]
      simp
    | succ k ihk =>
      intro i ls acc hk
      by_cases hi : i < tokens.length
      · have hdrop : tokens.drop i = tokens.get ⟨i, hi⟩ :: tokens.drop (i + 1) := by
          rw [List.drop_eq_getElem_cons hi]
          rfl
        rw [parserLoop, dif_pos hi, if_pos rfl, hdrop]
        cases htok : tokens.get ⟨i, hi⟩ with
        | loopOpen =>
          simp only
          rw [parserLoop_scan tokens (tokens.length - (i + 1)) (i + 1) 1 i acc le_rfl one_pos]
          rw [refParse_cons_open]
          cases hs : splitAtClose (tokens.drop (i + 1)) 1 with
          | none => rfl
          | some p =>
            obtain ⟨b, r⟩ := p
            simp only
            have hts : tokens.drop (i + 1) = b ++ .loopClose :: r :=
              splitAtClose_eq_append _ 1 b r one_pos hs
            have hsl : i + 1 + b.length - (i + 1) = b.length := by omega
            rw [hsl, hts, List.take_left]
            have hbody : parserLoop b 0 [] 0 0 =
                match refParse b 0 with
                | .error e => .error e
                | .ok ins => .ok ([] ++ ins) := by
              apply ihn b ?_ b.length 0 0 [] (by omega)
              have := congrArg List.length hts
              simp only [List.length_drop, List.length_append, List.length_cons] at this
              omega
            rw [hbody]
            cases hb : refParse b 0 with
            | error e => rfl
            | ok body =>
              simp only [List.nil_append]
              have hdrop2 : tokens.drop (i + 1 + b.length + 1) = r := by
                have h1 : tokens.drop (i + 1 + b.length + 1)
                    = (tokens.drop (i + 1)).drop (b.length + 1) := by
                  rw [List.drop_drop]
                  congr 1
                  try omega
                rw [h1, hts]
                rw [show b ++ Token.loopClose :: r = (b ++ [Token.loopClose]) ++ r by simp]
                apply List.drop_left'
                simp
              have hoff : i + 1 + b.length + 1 = i + b.length + 2 := by omega
              rw [ihk (i + 1 + b.length + 1) i (acc ++ [Instruction.loop body]) (by omega)]
              rw [hdrop2, hoff]
              cases hr2 : refParse r (i + b.length + 2) with
              | error e => rfl
              | ok rest => simp
        | loopClose =>
          simp only
          rw [refParse_cons_close]
        | incrementPointer =>
          simp only
          rw [ihk (i + 1) ls (acc ++ [Instruction.incrementPointer]) (by omega)]
          rw [refParse_cons_other (t := .incrementPointer) rfl]
          cases hr : refParse (tokens.drop (i + 1)) (i + 1) with
          | error e => rfl
          | ok rest => simp
        | decrementPointer =>
          simp only
          rw [ihk (i + 1) ls (acc ++ [Instruction.decrementPointer]) (by omega)]
          rw [refParse_cons_other (t := .decrementPointer) rfl]
          cases hr : refParse (tokens.drop (i + 1)) (i + 1) with
          | error e => rfl
          | ok rest => simp
        | increment =>
          simp only
          rw [ihk (i + 1) ls (acc ++ [Instruction.increment]) (by omega)]
          rw [refParse_cons_other (t := .increment) rfl]
          cases hr : refParse (tokens.drop (i + 1)) (i + 1) with
          | error e => rfl
          | ok rest => simp
        | decrement =>
          simp only
          rw [ihk (i + 1) ls (acc ++ [Instruction.decrement]) (by omega)]
          rw [refParse_cons_other (t := .decrement) rfl]
          cases hr : refParse (tokens.drop (i + 1)) (i + 1) with
          | error e => rfl
          | ok rest => simp
        | output =>
          simp only
          rw [ihk (i + 1) ls (acc ++ [Instruction.output]) (by omega)]
          rw [refParse_cons_other (t := .output) rfl]
          cases hr : refParse (tokens.drop (i + 1)) (i + 1) with
          | error e => rfl
          | ok rest => simp
        | input =>
          simp only
          rw [ihk (i + 1) ls (acc ++ [Instruction.input]) (by omega)]
          rw [refParse_cons_other (t := .input) rfl]
          cases hr : refParse (tokens.drop (i + 1)) (i + 1) with
          | error e => rfl
          | ok rest => simp
      · rw [List.drop_eq_nil_of_le (by omega), parserLoop_terminal hi, refParse_nil]
        simp

/-- The implementation structurer agrees with the reference structurer. -/
theorem parser_eq_refParse (ts : List Token) : parser ts = refParse ts 0 := by
  rw [parser]
  rw [parserLoop_eq_refParse ts.length ts le_rfl ts.length 0 0 [] (by omega)]
  simp only [List.drop_zero]
  cases refParse ts 0 <;> simp

/-- The structural correspondence stated by the specification: the empty
sequence structures to the empty instruction list, a non-bracket symbol to
its instruction followed by the structuring of the rest, and a matched
bracket span to exactly one Loop instruction whose children are the
recursively structured contents of the span.  Bracket symbols themselves
never appear: only `instructionOfToken?` images (never a bracket) and
`Instruction.loop` nodes are produced. -/
inductive SpecStructured : List Token → List Instruction → Prop where
  | nil : SpecStructured [] []
  | atom {t : Token} {ins : Instruction} {ts : List Token} {tail : List Instruction} :
      instructionOfToken? t = some ins → SpecStructured ts tail →
      SpecStructured (t :: ts) (ins :: tail)
  | loop {body ts : List Token} {bins tail : List Instruction} :
      SpecStructured body bins → SpecStructured ts tail →
      SpecStructured (.loopOpen :: body ++ .loopClose :: ts) (.loop bins :: tail)

/-- Number of leaf (non-Loop) instructions in an instruction tree, a Loop
node contributing the count of its children. -/
def leafCountList : List Instruction → Nat
  | [] => 0
  | .loop body :: rest => leafCountList body + leafCountList rest
  | _ :: rest => 1 + leafCountList rest

/-- A balanced sequence structures successfully. -/
theorem refParse_ok_of_balanced :
    ∀ (n : Nat) (ts : List Token), ts.length ≤ n → balancedFrom 0 ts = true →
      ∀ off : Nat, ∃ ins, refParse ts off = .ok ins := by
  intro n
  induction n with
  | zero =>
    intro ts hn _ off
    have : ts = [] := List.eq_nil_of_length_eq_zero (by omega)
    subst this
    exact ⟨[], refParse_nil off⟩
  | succ n ihn =>
    intro ts hn hbal off
    cases ts with
    | nil => exact ⟨[], refParse_nil off⟩
    | cons t ts' =>
      cases htb : isBracket t
      · obtain ⟨ins, hins⟩ : ∃ ins, instructionOfToken? t = some ins := by
          cases t <;> simp [isBracket] at htb <;> simp [instructionOfToken?]
        rw [balancedFrom_cons_other htb] at hbal
        obtain ⟨rest, hrest⟩ := ihn ts'
          (by simp only [List.length_cons] at hn; omega) hbal (off + 1)
        refine ⟨ins :: rest, ?_⟩
        rw [refParse_cons_other hins, hrest]
      · cases t <;> simp [isBracket] at htb
        case loopOpen =>
          rw [balancedFrom_cons_open] at hbal
          cases hs : splitAtClose ts' 1 with
          | none =>
            have := splitAtClose_none_balancedFrom ts' 1 one_pos hs
            rw [hbal] at this
            cases this
          | some p =>
            obtain ⟨b, r⟩ := p
            have hts : ts' = b ++ .loopClose :: r :=
              splitAtClose_eq_append ts' 1 b r one_pos hs
            have hlen : ts'.length = b.length + 1 + r.length := by
              rw [hts]; simp; omega
            have hbb : balancedFrom 0 b = true := by
              have := splitAtClose_body_balanced ts' 1 b r one_pos hs
              simpa using this
            have hbr : balancedFrom 0 r = true := by
              rw [← splitAtClose_balancedFrom ts' 1 b r one_pos hs]
              exact hbal
            have hn' : ts'.length ≤ n := by
              simp only [List.length_cons] at hn
              omega
            obtain ⟨bins, hbins⟩ := ihn b (by omega) hbb 0
            obtain ⟨rins, hrins⟩ := ihn r (by omega) hbr (off + b.length + 2)
            refine ⟨.loop bins :: rins, ?_⟩
            rw [refParse_cons_open, hs]
            simp only
            rw [hbins, hrins]
        case loopClose =>
          cases hd0 : balancedFrom 0 (Token.loopClose :: ts')
          · rw [hd0] at hbal; cases hbal
          · simp only [balancedFrom] at hd0
            cases hd0

/-- A successful reference parse realizes the structural correspondence. -/
theorem refParse_ok_structured :
    ∀ (n : Nat) (ts : List Token), ts.length ≤ n →
      ∀ (off : Nat) (ins : List Instruction), refParse ts off = .ok ins →
        SpecStructured ts ins := by
  intro n
  induction n with
  | zero =>
    intro ts hn off ins h
    have : ts = [] := List.eq_nil_of_length_eq_zero (by omega)
    subst this
    rw [refParse_nil] at h
    cases h
    exact .nil
  | succ n ihn =>
    intro ts hn off ins h
    cases ts with
    | nil =>
      rw [refParse_nil] at h
      cases h
      exact .nil
    | cons t ts' =>
      cases htb : isBracket t
      · obtain ⟨i0, hins⟩ : ∃ i0, instructionOfToken? t = some i0 := by
          cases t <;> simp [isBracket] at htb <;> simp [instructionOfToken?]
        rw [refParse_cons_other hins] at h
        cases hr : refParse ts' (off + 1) with
        | error e => rw [hr] at h; cases h
        | ok rest =>
          rw [hr] at h
          simp only [Except.ok.injEq] at h
          subst h
          exact .atom hins (ihn ts'
            (by simp only [List.length_cons] at hn; omega) (off + 1) rest hr)
      · cases t <;> simp [isBracket] at htb
        case loopOpen =>
          rw [refParse_cons_open] at h
          cases hs : splitAtClose ts' 1 with
          | none => rw [hs] at h; cases h
          | some p =>
            obtain ⟨b, r⟩ := p
            rw [hs] at h
            simp only at h
            cases hb : refParse b 0 with
            | error e => rw [hb] at h; cases h
            | ok bins =>
              rw [hb] at h
              cases hr : refParse r (off + b.length + 2) with
              | error e => rw [hr] at h; cases h
              | ok rins =>
                rw [hr] at h
                simp only [Except.ok.injEq] at h
                subst h
                have hts : ts' = b ++ .loopClose :: r :=
                  splitAtClose_eq_append ts' 1 b r one_pos hs
                have hlen : ts'.length = b.length + 1 + r.length := by
                  rw [hts]; simp; omega
                have hn' : ts'.length ≤ n := by
                  simp only [List.length_cons] at hn
                  omega
                rw [hts]
                exact .loop (ihn b (by omega) 0 bins hb)
                  (ihn r (by omega) (off + b.length + 2) rins hr)
        case loopClose =>
          rw [refParse_cons_close] at h
          cases h

/-- The structural correspondence preserves the leaf count: one leaf per
non-bracket token. -/
theorem specStructured_leafCount {ts : List Token} {ins : List Instruction}
    (h : SpecStructured ts ins) :
    leafCountList ins = ts.countP (fun t => !(isBracket t)) := by
  induction h with
  | nil => simp [leafCountList]
  | @atom t i0 ts' tail hins hrec ih =>
    cases t <;> simp only [instructionOfToken?, Option.some.injEq] at hins
    all_goals cases hins
    all_goals simp [leafCountList, List.countP_cons, isBracket, ih]
    all_goals try omega
  | @loop body ts' bins tail hbody hrest ihb ihr =>
    simp only [leafCountList]
    simp [List.countP_cons, List.countP_append, isBracket, ihb, ihr]

/-- With a close at depth zero present, the reference parse fails with the
unmatched-close error at exactly that position. -/
theorem refParse_error_close :
    ∀ (n : Nat) (ts : List Token), ts.length ≤ n →
      ∀ (off j : Nat), firstBadClose ts 0 = some j →
        refParse ts off = .error (.unmatchedClose (off + j)) := by
  intro n
  induction n with
  | zero =>
    intro ts hn off j hj
    have : ts = [] := List.eq_nil_of_length_eq_zero (by omega)
    subst this
    simp [firstBadClose] at hj
  | succ n ihn =>
    intro ts hn off j hj
    cases ts with
    | nil => simp [firstBadClose] at hj
    | cons t ts' =>
      have hn' : ts'.length ≤ n := by
        simp only [List.length_cons] at hn
        omega
      cases htb : isBracket t
      · rw [firstBadClose_cons_other htb] at hj
        cases hfb : firstBadClose ts' 0 with
        | none => rw [hfb] at hj; cases hj
        | some j' =>
          rw [hfb] at hj
          simp only [Option.map_some', Option.some.injEq] at hj
          subst hj
          obtain ⟨i0, hins⟩ : ∃ i0, instructionOfToken? t = some i0 := by
            cases t <;> simp [isBracket] at htb <;> simp [instructionOfToken?]
          rw [refParse_cons_other hins, ihn ts' hn' (off + 1) j' hfb]
          simp only
          congr 2
          omega
      · cases t <;> simp [isBracket] at htb
        case loopOpen =>
          rw [firstBadClose_cons_open] at hj
          cases hfb : firstBadClose ts' 1 with
          | none => rw [hfb] at hj; cases hj
          | some j2 =>
            rw [hfb] at hj
            simp only [Option.map_some', Option.some.injEq] at hj
            subst hj
            cases hs : splitAtClose ts' 1 with
            | none =>
              rw [splitAtClose_none_firstBadClose ts' 1 one_pos hs] at hfb
              cases hfb
            | some p =>
              obtain ⟨b, r⟩ := p
              rw [splitAtClose_firstBadClose ts' 1 b r one_pos hs] at hfb
              cases hfbr : firstBadClose r 0 with
              | none => rw [hfbr] at hfb; cases hfb
              | some j3 =>
                rw [hfbr] at hfb
                simp only [Option.map_some', Option.some.injEq] at hfb
                subst hfb
                have hts : ts' = b ++ .loopClose :: r :=
                  splitAtClose_eq_append ts' 1 b r one_pos hs
                have hlen : ts'.length = b.length + 1 + r.length := by
                  rw [hts]; simp; omega
                have hbb : balancedFrom 0 b = true := by
                  have := splitAtClose_body_balanced ts' 1 b r one_pos hs
                  simpa using this
                obtain ⟨bins, hbins⟩ := refParse_ok_of_balanced b.length b le_rfl hbb 0
                rw [refParse_cons_open, hs]
                simp only
                rw [hbins, ihn r (by omega) (off + b.length + 2) j3 hfbr]
                simp only
                congr 2
                omega
        case loopClose =>
          simp only [firstBadClose, Option.some.injEq] at hj
          subst hj
          rw [refParse_cons_close]
          simp

set_option linter.unusedVariables false in
/-- Position of the first loop-open that has no matching loop-close: the
start position the implementation records in `loop_start` when its scan
ends at nonzero depth.  A loop-open whose span closes is skipped past its
matching close; one that never closes is the reported start.  On the
sequence loop-open, loop-close, loop-open the result is position 2. -/
def firstUnclosedOpen (ts : List Token) : Option Nat :=
  match ts with
  | [] => none
  | .loopOpen :: ts' =>
    match hs : splitAtClose ts' 1 with
    | none => some 0
    | some (b, r) => (firstUnclosedOpen r).map (fun j => b.length + 2 + j)
  | _ :: ts' => (firstUnclosedOpen ts').map (· + 1)
termination_by ts.length
decreasing_by
  all_goals simp only [List.length_cons]
  all_goals try omega
  all_goals
    have hlen := congrArg List.length (splitAtClose_eq_append _ _ _ _ (by omega) hs)
    simp only [List.length_append, List.length_cons] at hlen
    omega

/-- Unfolding `firstUnclosedOpen` past a loop-open token. -/
theorem firstUnclosedOpen_cons_open (ts : List Token) :
    firstUnclosedOpen (.loopOpen :: ts) =
      match splitAtClose ts 1 with
      | none => some 0
      | some (b, r) => (firstUnclosedOpen r).map (fun j => b.length + 2 + j) := by
  rw [firstUnclosedOpen]
  cases hsp : splitAtClose ts 1 with
  | none => rfl
  | some p => obtain ⟨b, r⟩ := p; rfl

/-- Unfolding `firstUnclosedOpen` past any other token. -/
theorem firstUnclosedOpen_cons_other {t : Token} (h : t ≠ Token.loopOpen)
    (ts : List Token) :
    firstUnclosedOpen (t :: ts) = (firstUnclosedOpen ts).map (· + 1) := by
  cases t
  case loopOpen => exact absurd rfl h
  all_goals rw [firstUnclosedOpen]
  all_goals simp

/-- With no close at depth zero but an unbalanced sequence, the reference
parse fails with an unmatched-open error naming exactly the start position
of the unmatched loop: the position computed by `firstUnclosedOpen`, which
holds a loop-open token whose span never closes. -/
theorem refParse_error_open :
    ∀ (n : Nat) (ts : List Token), ts.length ≤ n →
      firstBadClose ts 0 = none → balancedFrom 0 ts = false →
      ∀ off : Nat, ∃ j, firstUnclosedOpen ts = some j ∧
        refParse ts off = .error (.unmatchedOpen (off + j)) ∧
        ts[j]? = some Token.loopOpen ∧
        splitAtClose (ts.drop (j + 1)) 1 = none := by
  intro n
  induction n with
  | zero =>
    intro ts hn _ hbal _
    have : ts = [] := List.eq_nil_of_length_eq_zero (by omega)
    subst this
    simp [balancedFrom] at hbal
  | succ n ihn =>
    intro ts hn hfb hbal off
    cases ts with
    | nil => simp [balancedFrom] at hbal
    | cons t ts' =>
      have hn' : ts'.length ≤ n := by
        simp only [List.length_cons] at hn
        omega
      cases htb : isBracket t
      · rw [firstBadClose_cons_other htb] at hfb
        rw [balancedFrom_cons_other htb] at hbal
        have hfb' : firstBadClose ts' 0 = none := by
          cases h0 : firstBadClose ts' 0 with
          | none => rfl
          | some x => rw [h0] at hfb; cases hfb
        obtain ⟨j', hfu, hj', hget, hnone⟩ := ihn ts' hn' hfb' hbal (off + 1)
        obtain ⟨i0, hins⟩ : ∃ i0, instructionOfToken? t = some i0 := by
          cases t <;> simp [isBracket] at htb <;> simp [instructionOfToken?]
        have htne : t ≠ Token.loopOpen := by
          intro he
          subst he
          simp [isBracket] at htb
        refine ⟨j' + 1, ?_, ?_, ?_, ?_⟩
        · rw [firstUnclosedOpen_cons_other htne, hfu]
          rfl
        · rw [refParse_cons_other hins, hj']
          simp only
          congr 2
          omega
        · rw [List.getElem?_cons_succ]
          exact hget
        · rw [List.drop_succ_cons]
          exact hnone
      · cases t <;> simp [isBracket] at htb
        case loopClose => simp [firstBadClose] at hfb
        case loopOpen =>
          rw [firstBadClose_cons_open] at hfb
          rw [balancedFrom_cons_open] at hbal
          have hfb1 : firstBadClose ts' 1 = none := by
            cases h0 : firstBadClose ts' 1 with
            | none => rfl
            | some x => rw [h0] at hfb; cases hfb
          cases hs : splitAtClose ts' 1 with
          | none =>
            refine ⟨0, ?_, ?_, ?_, ?_⟩
            · rw [firstUnclosedOpen_cons_open, hs]
            · rw [refParse_cons_open, hs]
              simp
            · simp
            · rw [List.drop_succ_cons, List.drop_zero]
              exact hs
          | some p =>
            obtain ⟨b, r⟩ := p
            have hts : ts' = b ++ .loopClose :: r :=
              splitAtClose_eq_append ts' 1 b r one_pos hs
            have hlen : ts'.length = b.length + 1 + r.length := by
              rw [hts]; simp; omega
            have hbb : balancedFrom 0 b = true := by
              have := splitAtClose_body_balanced ts' 1 b r one_pos hs
              simpa using this
            have hbr : balancedFrom 0 r = false := by
              rw [← splitAtClose_balancedFrom ts' 1 b r one_pos hs]
              exact hbal
            have hfbr : firstBadClose r 0 = none := by
              rw [splitAtClose_firstBadClose ts' 1 b r one_pos hs] at hfb1
              cases h0 : firstBadClose r 0 with
              | none => rfl
              | some x => rw [h0] at hfb1; cases hfb1
            obtain ⟨bins, hbins⟩ := refParse_ok_of_balanced b.length b le_rfl hbb 0
            obtain ⟨j', hfu, hj', hget, hnone⟩ := ihn r (by omega) hfbr hbr (off + b.length + 2)
            have hdropr : ts'.drop (b.length + 1) = r := by
              rw [hts]
              rw [show b ++ Token.loopClose :: r = (b ++ [Token.loopClose]) ++ r by simp]
              apply List.drop_left'
              simp
            refine ⟨b.length + 2 + j', ?_, ?_, ?_, ?_⟩
            · rw [firstUnclosedOpen_cons_open, hs]
              simp only
              rw [hfu]
              rfl
            · rw [refParse_cons_open, hs]
              simp only
              rw [hbins, hj']
              simp only
              congr 2
              omega
            · rw [hts]
              rw [show b.length + 2 + j' = (b.length + 1 + j') + 1 by omega]
              rw [List.getElem?_cons_succ]
              rw [List.getElem?_append_right (by omega)]
              rw [show b.length + 1 + j' - b.length = j' + 1 by omega]
              rw [List.getElem?_cons_succ]
              exact hget
            · rw [List.drop_succ_cons]
              rw [show b.length + 2 + j' = (b.length + 1) + (j' + 1) by omega]
              rw [show ts'.drop (b.length + 1 + (j' + 1)) = (ts'.drop (b.length + 1)).drop (j' + 1) by
                    rw [List.drop_drop]]
              rw [hdropr]
              exact hnone


/-- A machine state whose tape cells and pending input bytes and emitted
output codes are all genuine byte values. -/
def WellFormedState (s : MachineState) : Prop :=
  (∀ v ∈ s.tape, v < 256) ∧ (∀ v ∈ s.input, v < 256) ∧ (∀ v ∈ s.output, v < 256)

/-- Well-formedness of the state reached by an outcome (vacuous on fuel
exhaustion). -/
def outcomeWF : Outcome → Prop
  | .ok s => WellFormedState s
  | .fault _ s => WellFormedState s
  | .fuelOut => True

/-- Execution preserves byte-valued states: every cell write is reduced
modulo 256 or comes from a byte of input, and every emitted code is a cell
value. -/
theorem run_preserves_wf :
    ∀ (fuel : Nat) (prog : List Instruction) (s : MachineState),
      WellFormedState s → outcomeWF (run fuel prog s) := by
  intro fuel
  induction fuel with
  | zero => intro prog s hs; simp [run, outcomeWF]
  | succ fuel ih =>
    intro prog s hs
    obtain ⟨htape, hinput, houtput⟩ := hs
    cases prog with
    | nil => exact ⟨htape, hinput, houtput⟩
    | cons ins rest =>
      cases ins with
      | incrementPointer =>
        simp only [run]
        exact ih rest _ ⟨htape, hinput, houtput⟩
      | decrementPointer =>
        simp only [run]
        by_cases hp : s.pointer = 0
        · rw [if_pos hp]; exact ⟨htape, hinput, houtput⟩
        · rw [if_neg hp]; exact ih rest _ ⟨htape, hinput, houtput⟩
      | increment =>
        simp only [run]
        by_cases hp : s.pointer < s.tape.length
        · rw [dif_pos hp]
          refine ih rest _ ⟨?_, hinput, houtput⟩
          intro v hv
          rcases List.mem_or_eq_of_mem_set hv with h | h
          · exact htape v h
          · subst h; exact Nat.mod_lt _ (by omega)
        · rw [dif_neg hp]; exact ⟨htape, hinput, houtput⟩
      | decrement =>
        simp only [run]
        by_cases hp : s.pointer < s.tape.length
        · rw [dif_pos hp]
          refine ih rest _ ⟨?_, hinput, houtput⟩
          intro v hv
          rcases List.mem_or_eq_of_mem_set hv with h | h
          · exact htape v h
          · subst h; exact Nat.mod_lt _ (by omega)
        · rw [dif_neg hp]; exact ⟨htape, hinput, houtput⟩
      | output =>
        simp only [run]
        by_cases hp : s.pointer < s.tape.length
        · rw [dif_pos hp]
          refine ih rest _ ⟨htape, hinput, ?_⟩
          intro v hv
          rcases List.mem_append.mp hv with h | h
          · exact houtput v h
          · rw [List.mem_singleton] at h
            subst h
            exact htape _ (List.get_mem s.tape s.pointer hp)
        · rw [dif_neg hp]; exact ⟨htape, hinput, houtput⟩
      | input =>
        simp only [run]
        cases hin : s.input with
        | nil => exact ⟨htape, hinput, houtput⟩
        | cons b bs =>
          have hb : b < 256 := hinput b (by rw [hin]; exact List.mem_cons_self b bs)
          have hbs : ∀ v ∈ bs, v < 256 := fun v hv =>
            hinput v (by rw [hin]; exact List.mem_cons_of_mem b hv)
          simp only
          by_cases hp : s.pointer < s.tape.length
          · rw [if_pos hp]
            refine ih rest _ ⟨?_, hbs, houtput⟩
            intro v hv
            rcases List.mem_or_eq_of_mem_set hv with h | h
            · exact htape v h
            · subst h; exact hb
          · rw [if_neg hp]
            exact ⟨htape, hbs, houtput⟩
      | loop body =>
        simp only [run]
        by_cases hp : s.pointer < s.tape.length
        · rw [dif_pos hp]
          by_cases hz : s.tape.get ⟨s.pointer, hp⟩ = 0
          · rw [if_pos hz]; exact ih rest _ ⟨htape, hinput, houtput⟩
          · rw [if_neg hz]
            have hbody := ih body s ⟨htape, hinput, houtput⟩
            cases hrun : run fuel body s with
            | ok s' =>
              rw [hrun] at hbody
              exact ih (Instruction.loop body :: rest) s' hbody
            | fault e s' => rw [hrun] at hbody; exact hbody
            | fuelOut => simp [outcomeWF]
        · rw [dif_neg hp]; exact ⟨htape, hinput, houtput⟩

/-- A block of `n` pointer-increment instructions just advances the pointer
by `n` and then continues, touching neither tape nor output nor input. -/
theorem run_replicate_inc_append :
    ∀ (n fuel : Nat) (prog : List Instruction) (s : MachineState),
      run (fuel + n) (List.replicate n .incrementPointer ++ prog) s =
        run fuel prog { s with pointer := s.pointer + n } := by
  intro n
  induction n with
  | zero =>
    intro fuel prog s
    simp only [List.replicate, List.nil_append, Nat.add_zero]
  | succ n ih =>
    intro fuel prog s
    rw [List.replicate_succ, List.cons_append]
    rw [show fuel + (n + 1) = (fuel + n) + 1 by omega]
    simp only [run]
    rw [ih fuel prog { s with pointer := s.pointer + 1 }]
    simp only
    rw [show s.pointer + 1 + n = s.pointer + (n + 1) by omega]

/-- The scanner is exactly the filter-map of the character table. -/
theorem lexer_eq_filterMap : ∀ s : List Char, lexer s = s.filterMap tokenOfChar? := by
  intro s
  induction s with
  | nil => rfl
  | cons c cs ih =>
    cases hc : tokenOfChar? c with
    | none => simp [lexer, hc, List.filterMap_cons, ih]
    | some t => simp [lexer, hc, List.filterMap_cons, ih]

/-- The scanner distributes over concatenation. -/
theorem lexer_append : ∀ s t : List Char, lexer (s ++ t) = lexer s ++ lexer t := by
  intro s t
  induction s with
  | nil => rfl
  | cons c cs ih =>
    cases hc : tokenOfChar? c with
    | none => simp [lexer, hc, ih]
    | some tok => simp [lexer, hc, ih]

/-- One token per recognized character. -/
theorem lexer_length : ∀ s : List Char,
    (lexer s).length = s.countP (fun c => (tokenOfChar? c).isSome) := by
  intro s
  induction s with
  | nil => rfl
  | cons c cs ih =>
    cases hc : tokenOfChar? c with
    | none => simp [lexer, hc, List.countP_cons, ih]
    | some t => simp [lexer, hc, List.countP_cons, ih]

/-- The character table sends exactly the two bracket characters to bracket
tokens. -/
theorem tokenOfChar_bracket :
    ∀ (c : Char) (t : Token), tokenOfChar? c = some t →
      isBracket t = (c == '[' || c == ']') := by
  intro c t h
  unfold tokenOfChar? at h
  split at h
  all_goals try (cases h)
  all_goals decide

/-- Counting non-bracket tokens equals counting non-bracket characters when
every character is recognized. -/
theorem lexer_countP_nonbracket :
    ∀ s : List Char, (∀ c ∈ s, (tokenOfChar? c).isSome) →
      (lexer s).countP (fun t => !(isBracket t))
        = s.countP (fun c => !(c == '[' || c == ']')) := by
  intro s
  induction s with
  | nil => intro _; rfl
  | cons c cs ih =>
    intro hall
    have hc : (tokenOfChar? c).isSome := hall c (List.mem_cons_self c cs)
    obtain ⟨t, ht⟩ := Option.isSome_iff_exists.mp hc
    have hcs : ∀ x ∈ cs, (tokenOfChar? x).isSome :=
      fun x hx => hall x (List.mem_cons_of_mem c hx)
    simp only [lexer, ht]
    rw [List.countP_cons, List.countP_cons, ih hcs, tokenOfChar_bracket c t ht]

/-- The tape of `main` has 24576 cells. -/
theorem initTape_length : initTape.length = 24576 := by
  rw [initTape]
  exact List.length_replicate 24576 0

/-! ### The claims -/

/-- C4: executing a Loop instruction tests the byte at the cursor before
each entry into the child sequence, including the first: if the byte is
zero the loop terminates and control passes to the next instruction — in
particular a Loop over a zero cell executes its body zero times and leaves
the state (hence the output) unchanged; if the byte is nonzero the child
sequence runs once to completion and the test repeats. -/
theorem loop_tests_before_each_entry
    (fuel : Nat) (body rest : List Instruction) (s : MachineState)
    (h : s.pointer < s.tape.length) :
    (s.tape.get ⟨s.pointer, h⟩ = 0 →
      run (fuel + 1) (.loop body :: rest) s = run fuel rest s) ∧
    (s.tape.get ⟨s.pointer, h⟩ ≠ 0 →
      run (fuel + 1) (.loop body :: rest) s =
        match run fuel body s with
        | .ok s' => run fuel (.loop body :: rest) s'
        | out => out) ∧
    (s.tape.get ⟨s.pointer, h⟩ = 0 →
      run (fuel + 2) [Instruction.loop body] s = .ok s) := by
  refine ⟨?_, ?_, ?_⟩
  · intro hz
    simp only [run]
    rw [dif_pos h, if_pos hz]
  · intro hz
    simp only [run]
    rw [dif_pos h, if_neg hz]
  · intro hz
    show run (fuel + 1 + 1) [Instruction.loop body] s = .ok s
    simp only [run]
    rw [dif_pos h, if_pos hz]

/-- Witness for C4 at a concrete zero cell. -/
theorem loop_tests_before_each_entry_witness :
    run 2 [Instruction.loop [Instruction.increment]]
        { tape := [0], pointer := 0, output := [], input := [] } =
      .ok { tape := [0], pointer := 0, output := [], input := [] } :=
  (loop_tests_before_each_entry 0 [Instruction.increment] []
    { tape := [0], pointer := 0, output := [], input := [] } (by decide)).2.2 (by decide)

/-- C5: at any in-bounds cursor position, cell-increment rewrites the cell
to its value plus one modulo 256 and cell-decrement to its value minus one
modulo 256 (for a byte value this is adding 255 modulo 256); in particular
a cell at 255 becomes 0 on increment and a cell at 0 becomes 255 on
decrement, and execution continues normally with no overflow or underflow
signalling. -/
theorem cell_increment_decrement_wraparound
    (fuel : Nat) (rest : List Instruction) (s : MachineState)
    (h : s.pointer < s.tape.length) :
    (run (fuel + 1) (.increment :: rest) s =
      run fuel rest
        { s with tape := s.tape.set s.pointer ((s.tape.get ⟨s.pointer, h⟩ + 1) % 256) }) ∧
    (run (fuel + 1) (.decrement :: rest) s =
      run fuel rest
        { s with tape := s.tape.set s.pointer ((s.tape.get ⟨s.pointer, h⟩ + 255) % 256) }) ∧
    (s.tape.get ⟨s.pointer, h⟩ = 255 →
      run (fuel + 1) (.increment :: rest) s =
        run fuel rest { s with tape := s.tape.set s.pointer 0 }) ∧
    (s.tape.get ⟨s.pointer, h⟩ = 0 →
      run (fuel + 1) (.decrement :: rest) s =
        run fuel rest { s with tape := s.tape.set s.pointer 255 }) := by
  refine ⟨?_, ?_, ?_, ?_⟩
  · simp only [run]
    rw [dif_pos h]
  · simp only [run]
    rw [dif_pos h]
  · intro h255
    simp only [run]
    rw [dif_pos h, h255]
  · intro h0
    simp only [run]
    rw [dif_pos h, h0]

/-- Witness for C5 at a cell holding 255 and a cell holding 0. -/
theorem cell_increment_decrement_wraparound_witness :
    (run 1 [Instruction.increment] { tape := [255], pointer := 0, output := [], input := [] } =
      run 0 [] { tape := ([255] : List Nat).set 0 0, pointer := 0, output := [], input := [] }) ∧
    (run 1 [Instruction.decrement] { tape := [0], pointer := 0, output := [], input := [] } =
      run 0 [] { tape := ([0] : List Nat).set 0 255, pointer := 0, output := [], input := [] }) :=
  ⟨(cell_increment_decrement_wraparound 0 []
      { tape := [255], pointer := 0, output := [], input := [] } (by decide)).2.2.1 (by decide),
   (cell_increment_decrement_wraparound 0 []
      { tape := [0], pointer := 0, output := [], input := [] } (by decide)).2.2.2 (by decide)⟩

/-- C6: the scanner maps each recognized character in source order to its
token and skips every other character with no observable effect; it is a
total function (it cannot fail), and the empty string yields the empty
sequence. -/
theorem scanner_total_mapping :
    (∀ s : List Char, lexer s = s.filterMap tokenOfChar?) ∧
    lexer [] = [] ∧
    (∀ (pre post : List Char) (c : Char), tokenOfChar? c = none →
      lexer (pre ++ c :: post) = lexer (pre ++ post)) ∧
    (∀ s : List Char, (lexer s).length = s.countP fun c => (tokenOfChar? c).isSome) := by
  refine ⟨lexer_eq_filterMap, rfl, ?_, lexer_length⟩
  intro pre post c hc
  rw [lexer_append, lexer_append]
  simp [lexer, hc]

/-- Witness for C6: an unrecognized character is skipped. -/
theorem scanner_total_mapping_witness :
    lexer (['+'] ++ 'x' :: ['>']) = lexer (['+'] ++ ['>']) :=
  scanner_total_mapping.2.2.1 ['+'] ['>'] 'x' (by decide)

/-- C7: an output instruction at an in-bounds cursor appends exactly one
character code to the output, equal to the current cell value, and
execution continues in order; on a well-formed state that value is a byte
(0 to 255), and execution preserves well-formedness. -/
theorem output_emits_current_cell
    (fuel : Nat) (rest : List Instruction) (s : MachineState)
    (h : s.pointer < s.tape.length) :
    (run (fuel + 1) (.output :: rest) s =
      run fuel rest { s with output := s.output ++ [s.tape.get ⟨s.pointer, h⟩] }) ∧
    (WellFormedState s → s.tape.get ⟨s.pointer, h⟩ < 256) ∧
    (∀ prog : List Instruction, WellFormedState s → outcomeWF (run fuel prog s)) := by
  refine ⟨?_, ?_, ?_⟩
  · simp only [run]
    rw [dif_pos h]
  · intro hwf
    exact hwf.1 _ (List.get_mem s.tape s.pointer h)
  · intro prog hwf
    exact run_preserves_wf fuel prog s hwf

/-- Witness for C7 at a concrete cell holding 65. -/
theorem output_emits_current_cell_witness :
    (run 1 [Instruction.output] { tape := [65], pointer := 0, output := [], input := [] } =
      run 0 [] { tape := [65], pointer := 0, output := [65], input := [] }) ∧ (65 : Nat) < 256 :=
  ⟨(output_emits_current_cell 0 []
      { tape := [65], pointer := 0, output := [], input := [] } (by decide)).1,
   (output_emits_current_cell 0 []
      { tape := [65], pointer := 0, output := [], input := [] } (by decide)).2.1
    (by refine ⟨?_, ?_, ?_⟩ <;> decide)⟩

/-- C8: before the first instruction runs, the tape has exactly 24576
cells, every cell is zero, and the cursor sits at index 12288. -/
theorem initial_machine_state (input : List Nat) :
    (initState input).tape.length = 24576 ∧
    (∀ (i : Nat) (h : i < (initState input).tape.length),
      (initState input).tape.get ⟨i, h⟩ = 0) ∧
    (initState input).pointer = 12288 := by
  refine ⟨?_, ?_, rfl⟩
  · show initTape.length = 24576
    rw [initTape]
    exact List.length_replicate 24576 0
  · intro i h
    show initTape.get ⟨i, h⟩ = 0
    rw [List.get_eq_getElem]
    simp only [initTape, List.getElem_replicate]

/-- Witness for C8 at cell 0 with empty stdin. -/
theorem initial_machine_state_witness :
    (initState []).tape.length = 24576 ∧
    (initState []).tape.get
      ⟨0, (by rw [(initial_machine_state []).1]; omega : 0 < (initState []).tape.length)⟩ = 0 :=
  ⟨(initial_machine_state []).1, (initial_machine_state []).2.1 0 _⟩

/-- C9: the structurer is a deterministic function of the token sequence:
two successful runs on the same sequence give structurally identical
(equal) instruction trees. -/
theorem structurer_deterministic :
    ∀ (ts : List Token) (ins₁ ins₂ : List Instruction),
      parser ts = .ok ins₁ → parser ts = .ok ins₂ → ins₁ = ins₂ := by
  intro ts a b h1 h2
  rw [h1] at h2
  cases h2
  rfl

/-- Witness for C9 on the empty token sequence. -/
theorem structurer_deterministic_witness : ([] : List Instruction) = [] :=
  structurer_deterministic [] [] []
    (by rw [parser_eq_refParse, refParse_nil])
    (by rw [parser_eq_refParse, refParse_nil])

/-- C10: frame effects of each in-bounds step: the pointer moves leave
every tape cell (and the output and input) unchanged; cell-increment,
cell-decrement and input leave the cursor unchanged and no tape cell other
than the one at the cursor is modified; output leaves the cursor and every
tape cell unchanged. -/
theorem instruction_frame_effects
    (fuel : Nat) (rest : List Instruction) (s : MachineState) :
    (run (fuel + 1) (.incrementPointer :: rest) s
        = run fuel rest { s with pointer := s.pointer + 1 }) ∧
    (s.pointer ≠ 0 →
      run (fuel + 1) (.decrementPointer :: rest) s
        = run fuel rest { s with pointer := s.pointer - 1 }) ∧
    (s.pointer < s.tape.length →
      ∃ s', run (fuel + 1) (.increment :: rest) s = run fuel rest s' ∧
        s'.pointer = s.pointer ∧ s'.output = s.output ∧ s'.input = s.input ∧
        s'.tape.length = s.tape.length ∧
        ∀ j : Nat, j ≠ s.pointer → s'.tape[j]? = s.tape[j]?) ∧
    (s.pointer < s.tape.length →
      ∃ s', run (fuel + 1) (.decrement :: rest) s = run fuel rest s' ∧
        s'.pointer = s.pointer ∧ s'.output = s.output ∧ s'.input = s.input ∧
        s'.tape.length = s.tape.length ∧
        ∀ j : Nat, j ≠ s.pointer → s'.tape[j]? = s.tape[j]?) ∧
    (∀ (b : Nat) (bs : List Nat), s.input = b :: bs → s.pointer < s.tape.length →
      ∃ s', run (fuel + 1) (.input :: rest) s = run fuel rest s' ∧
        s'.pointer = s.pointer ∧ s'.output = s.output ∧
        s'.tape.length = s.tape.length ∧
        ∀ j : Nat, j ≠ s.pointer → s'.tape[j]? = s.tape[j]?) ∧
    (s.pointer < s.tape.length →
      ∃ s', run (fuel + 1) (.output :: rest) s = run fuel rest s' ∧
        s'.pointer = s.pointer ∧ s'.tape = s.tape ∧ s'.input = s.input) := by
  refine ⟨?_, ?_, ?_, ?_, ?_, ?_⟩
  · simp only [run]
  · intro hp
    simp only [run]
    rw [if_neg hp]
  · intro h
    refine ⟨{ s with tape := s.tape.set s.pointer ((s.tape.get ⟨s.pointer, h⟩ + 1) % 256) },
      ?_, rfl, rfl, rfl, by simp, ?_⟩
    · simp only [run]
      rw [dif_pos h]
    · intro j hj
      exact List.getElem?_set_ne (fun he => hj he.symm)
  · intro h
    refine ⟨{ s with tape := s.tape.set s.pointer ((s.tape.get ⟨s.pointer, h⟩ + 255) % 256) },
      ?_, rfl, rfl, rfl, by simp, ?_⟩
    · simp only [run]
      rw [dif_pos h]
    · intro j hj
      exact List.getElem?_set_ne (fun he => hj he.symm)
  · intro b bs hin h
    refine ⟨{ s with tape := s.tape.set s.pointer b, input := bs }, ?_, rfl, rfl, by simp, ?_⟩
    · simp only [run]
      rw [hin]
      simp only
      rw [if_pos h]
    · intro j hj
      exact List.getElem?_set_ne (fun he => hj he.symm)
  · intro h
    refine ⟨{ s with output := s.output ++ [s.tape.get ⟨s.pointer, h⟩] }, ?_, rfl, rfl, rfl⟩
    simp only [run]
    rw [dif_pos h]

/-- Witness for C10 at a concrete two-cell state. -/
theorem instruction_frame_effects_witness :
    (run 1 [Instruction.incrementPointer]
        { tape := [3, 4], pointer := 1, output := [], input := [9] } =
      run 0 [] { tape := [3, 4], pointer := 2, output := [], input := [9] }) ∧
    (∃ s', run 1 [Instruction.input]
        { tape := [3, 4], pointer := 1, output := [], input := [9] } = run 0 [] s' ∧
      s'.pointer = 1 ∧ s'.output = [] ∧ s'.tape.length = 2 ∧
      ∀ j : Nat, j ≠ 1 → s'.tape[j]? = ([3, 4] : List Nat)[j]?) :=
  ⟨(instruction_frame_effects 0 []
      { tape := [3, 4], pointer := 1, output := [], input := [9] }).1,
   (instruction_frame_effects 0 []
      { tape := [3, 4], pointer := 1, output := [], input := [9] }).2.2.2.2.1 9 [] rfl
      (by decide)⟩

/-- C1 (evaluating the code at the failing input): from the initial state,
a program of 12288 pointer-increment instructions moves the cursor to
24576 — one past the final valid index 24575 — and the run terminates
normally, with no fault and no output; execution does not abort at the
out-of-range move.  The abort only happens at the next tape access, as the
final conjunct shows for a subsequent output instruction. -/
theorem pointer_move_past_end_does_not_abort :
    (run 12289 (List.replicate 12288 .incrementPointer) (initState []) =
      .ok { tape := initTape, pointer := 24576, output := [], input := [] }) ∧
    24575 < 24576 ∧
    (run 12290 (List.replicate 12288 .incrementPointer ++ [Instruction.output])
        (initState []) =
      .fault .outOfBounds { tape := initTape, pointer := 24576, output := [], input := [] }) := by
  have hp : (initState []).pointer + 12288 = 24576 := rfl
  refine ⟨?_, by omega, ?_⟩
  · have h := run_replicate_inc_append 12288 1 [] (initState [])
    rw [List.append_nil] at h
    rw [show (1 : Nat) + 12288 = 12289 from rfl] at h
    rw [h, hp]
    simp only [run]
    rfl
  · have h := run_replicate_inc_append 12288 2 [Instruction.output] (initState [])
    rw [show (2 : Nat) + 12288 = 12290 from rfl] at h
    rw [h, hp]
    simp only [run]
    rw [dif_neg (by show ¬ 24576 < initTape.length
                    rw [initTape_length]
                    omega : ¬ 24576 < (initState []).tape.length)]
    rfl

/-- C2: every balanced symbol sequence structures successfully into a tree
realizing the structural correspondence of the specification — each
matched bracket span becomes exactly one Loop instruction whose children
are the recursively structured contents of the span, and bracket symbols
never appear as instructions; every successful parse has exactly one leaf
instruction per non-bracket token, hence for a string made only of
recognized characters, one leaf per non-bracket character. -/
theorem structurer_correspondence :
    (∀ ts : List Token, Balanced ts →
      ∃ ins, parser ts = .ok ins ∧ SpecStructured ts ins) ∧
    (∀ (ts : List Token) (ins : List Instruction), parser ts = .ok ins →
      leafCountList ins = ts.countP fun t => !(isBracket t)) ∧
    (∀ s : List Char, (∀ c ∈ s, (tokenOfChar? c).isSome) →
      ∀ ins : List Instruction, parser (lexer s) = .ok ins →
        leafCountList ins = s.countP fun c => !(c == '[' || c == ']')) := by
  have hok : ∀ (ts : List Token) (ins : List Instruction), parser ts = .ok ins →
      SpecStructured ts ins := by
    intro ts ins h
    rw [parser_eq_refParse] at h
    exact refParse_ok_structured ts.length ts le_rfl 0 ins h
  refine ⟨?_, ?_, ?_⟩
  · intro ts hbal
    obtain ⟨ins, hins⟩ := refParse_ok_of_balanced ts.length ts le_rfl hbal 0
    have hp : parser ts = .ok ins := by rw [parser_eq_refParse]; exact hins
    exact ⟨ins, hp, hok ts ins hp⟩
  · intro ts ins h
    exact specStructured_leafCount (hok ts ins h)
  · intro s hall ins h
    rw [specStructured_leafCount (hok _ ins h)]
    exact lexer_countP_nonbracket s hall

/-- Witness for C2 on a small balanced sequence and the empty parse. -/
theorem structurer_correspondence_witness :
    (∃ ins, parser [Token.loopOpen, Token.increment, Token.loopClose] = .ok ins ∧
      SpecStructured [Token.loopOpen, Token.increment, Token.loopClose] ins) ∧
    leafCountList [] = ([] : List Token).countP (fun t => !(isBracket t)) :=
  ⟨structurer_correspondence.1 [Token.loopOpen, Token.increment, Token.loopClose]
      (by show balancedFrom 0 [Token.loopOpen, Token.increment, Token.loopClose] = true
          decide),
   structurer_correspondence.2.1 [] [] (by rw [parser_eq_refParse, refParse_nil])⟩

/-- C3: a balanced sequence never provokes a structural error; a sequence
with a loop-close unmatched by any earlier open fails with the
unmatched-close error at exactly that position; a sequence with no such
close but an unmatched loop-open fails with the unmatched-open error
naming exactly the start position of the unmatched loop — the position
computed by `firstUnclosedOpen`, which holds a loop-open token whose span
never closes (so on loop-open, loop-close, loop-open the reported start is
2, not 0); and a parse error always aborts the pipeline before `run` is
entered, so no instruction executes and the output is empty. -/
theorem structurer_error_reporting :
    (∀ ts : List Token, Balanced ts → ∃ ins, parser ts = .ok ins) ∧
    (∀ (ts : List Token) (i : Nat), firstBadClose ts 0 = some i →
      parser ts = .error (.unmatchedClose i)) ∧
    (∀ ts : List Token, firstBadClose ts 0 = none → ¬ Balanced ts →
      ∃ j, firstUnclosedOpen ts = some j ∧
        parser ts = .error (.unmatchedOpen j) ∧
        ts[j]? = some Token.loopOpen ∧
        splitAtClose (ts.drop (j + 1)) 1 = none) ∧
    (∀ (fuel : Nat) (src : List Char) (input : List Nat) (e : ParseError),
      parser (lexer src) = .error e → runProgram fuel src input = .error e) := by
  refine ⟨?_, ?_, ?_, ?_⟩
  · intro ts hbal
    obtain ⟨ins, hins⟩ := refParse_ok_of_balanced ts.length ts le_rfl hbal 0
    exact ⟨ins, by rw [parser_eq_refParse]; exact hins⟩
  · intro ts i hfb
    rw [parser_eq_refParse]
    have h := refParse_error_close ts.length ts le_rfl 0 i hfb
    simpa using h
  · intro ts hfb hbal
    have hbal' : balancedFrom 0 ts = false := by
      cases hb : balancedFrom 0 ts
      · rfl
      · exact absurd hb hbal
    obtain ⟨j, hfu, hj, hget, hnone⟩ := refParse_error_open ts.length ts le_rfl hfb hbal' 0
    refine ⟨j, hfu, ?_, hget, hnone⟩
    rw [parser_eq_refParse]
    simpa using hj
  · intro fuel src input e h
    rw [runProgram, h]

/-- Witness for C3 on the canonical inputs, the unmatched-open case
exercised on loop-open, loop-close, loop-open, whose unmatched loop starts
at position 2. -/
theorem structurer_error_reporting_witness :
    (∃ ins, parser [] = Except.ok ins) ∧
    parser [Token.loopClose] = .error (.unmatchedClose 0) ∧
    (∃ j, firstUnclosedOpen [Token.loopOpen, Token.loopClose, Token.loopOpen] = some j ∧
      parser [Token.loopOpen, Token.loopClose, Token.loopOpen] = .error (.unmatchedOpen j) ∧
      ([Token.loopOpen, Token.loopClose, Token.loopOpen])[j]? = some Token.loopOpen ∧
      splitAtClose (([Token.loopOpen, Token.loopClose, Token.loopOpen]).drop (j + 1)) 1 = none) ∧
    runProgram 5 [']'] [] = .error (.unmatchedClose 0) :=
  ⟨structurer_error_reporting.1 [] rfl,
   structurer_error_reporting.2.1 [Token.loopClose] 0 rfl,
   structurer_error_reporting.2.2.1 [Token.loopOpen, Token.loopClose, Token.loopOpen] rfl
     (by show ¬ balancedFrom 0 [Token.loopOpen, Token.loopClose, Token.loopOpen] = true
         decide),
   structurer_error_reporting.2.2.2 5 [']'] [] (ParseError.unmatchedClose 0)
     (structurer_error_reporting.2.1 [Token.loopClose] 0 rfl)⟩

end Bfi
